import Mathlib

/-!
Verification development for the invoice-management backend
(`server/index.ts` with types from `server/types.ts`).

The subject is the in-memory invoice store with its query engine
(status filter → text search → sort → paginate, the `GET /api/invoices`
handler) and the delayed status-transition simulator (`simulateProcessing`).

Embedding conventions:
* timestamps (`Date` values) are modelled by their millisecond value
  (`getTime`) as an `Int`; `new Date(t).getTime() = t` so the
  `uploadDate` normalisation in the sort comparator is the identity here;
* the `Map<string, Invoice>` store is modelled as a `List Invoice` in
  insertion order (which is the iteration order of a JS `Map`, and the
  order `Array.from(invoices.values())` produces); mutation of a record
  found by `invoices.get(id)` is modelled by rewriting the first record
  with that id;
* `Array.prototype.sort` is modelled by the stable merge sort
  `List.mergeSort` with `le a b := comparator a b ≤ 0` (ECMAScript 2019+
  requires a stable sort; the handler's comparator never returns 0);
* absent query parameters are `Option.none`; fallible JS parsing
  (`parseInt` returning `NaN`) returns `Option.none`.
-/

namespace InvoiceApp

/-- Invoice status enum, from `server/types.ts`:
`'Pending' | 'Processing' | 'Processed' | 'Failed'`. -/
inductive Status where
  | Pending
  | Processing
  | Processed
  | Failed
deriving DecidableEq

/-- The string carried by each `Status` value in the source (the statuses
are plain strings in TypeScript). -/
def statusStr : Status → String
  | .Pending => "Pending"
  | .Processing => "Processing"
  | .Processed => "Processed"
  | .Failed => "Failed"

/-- The `Invoice` record of `server/types.ts`. Timestamps are `Int`
millisecond values; the two processing timestamps are optional exactly as
in the source. -/
structure Invoice where
  id : String
  fileName : String
  fileSize : Int
  clientName : String
  amount : Int
  uploadDate : Int
  status : Status
  filePath : String
  processingStartTime : Option Int
  processingEndTime : Option Int
deriving DecidableEq

/-- Dynamic JS values as they appear in the sort comparator's
`a[sortBy as keyof Invoice]`: a number (also used for `Date`, compared by
its millisecond value), a string, or `undefined` for an absent key. -/
inductive JSVal where
  | num (n : Int)
  | str (s : String)
  | undefined
deriving DecidableEq

/-- Dynamic field access `inv[f as keyof Invoice]`: a name that is not a
field of `Invoice` yields `undefined`. `Date`-valued fields are modelled
by their millisecond value. -/
def fieldVal (inv : Invoice) (f : String) : JSVal :=
  if f = "id" then .str inv.id
  else if f = "fileName" then .str inv.fileName
  else if f = "fileSize" then .num inv.fileSize
  else if f = "clientName" then .str inv.clientName
  else if f = "amount" then .num inv.amount
  else if f = "uploadDate" then .num inv.uploadDate
  else if f = "status" then .str (statusStr inv.status)
  else if f = "filePath" then .str inv.filePath
  else if f = "processingStartTime" then
    match inv.processingStartTime with
    | some t => .num t
    | none => .undefined
  else if f = "processingEndTime" then
    match inv.processingEndTime with
    | some t => .num t
    | none => .undefined
  else .undefined

/-- The value the comparator actually compares: for `sortBy = 'uploadDate'`
the source converts via `new Date(aValue).getTime()`, which is the
identity on the millisecond model; every other field is used as is. -/
def sortVal (f : String) (inv : Invoice) : JSVal :=
  if f = "uploadDate" then .num inv.uploadDate else fieldVal inv f

/-- JS `>` on the values that can meet in the comparator. Comparisons
between numbers and between strings are the usual ones (strings compare
lexicographically); every comparison involving `undefined` is `false`
(NaN semantics). A number–string pair is modelled as `false` as well:
the comparator only ever compares the same field of two records, so the
two sides always have the same type (and JS itself yields `false` there
whenever the string is not a numeric literal). -/
def jsGT : JSVal → JSVal → Bool
  | .num a, .num b => decide (b < a)
  | .str a, .str b => decide (b < a)
  | _, _ => false

/-- JS `<`, same conventions as `jsGT`. -/
def jsLT : JSVal → JSVal → Bool
  | .num a, .num b => decide (a < b)
  | .str a, .str b => decide (a < b)
  | _, _ => false

/-- The sort comparator of the `GET /api/invoices` handler:
`sortOrder === 'asc' ? (aValue > bValue ? 1 : -1) : (aValue < bValue ? 1 : -1)`.
It never returns 0. -/
def jsCmp (f ord : String) (a b : Invoice) : Int :=
  if ord = "asc" then (if jsGT (sortVal f a) (sortVal f b) then 1 else -1)
  else (if jsLT (sortVal f a) (sortVal f b) then 1 else -1)

/-- The keep-left-before-right relation a stable sort derives from the
comparator: `a` may stay before `b` when the comparator does not demand a
swap. -/
def sortLe (f ord : String) (a b : Invoice) : Bool :=
  decide (jsCmp f ord a b ≤ 0)

/-- `filteredInvoices.sort(comparator)`, modelled as the stable merge
sort with `sortLe`. -/
def sortInvoices (f ord : String) (l : List Invoice) : List Invoice :=
  l.mergeSort (sortLe f ord)

/-- Check that `needle` occurs at the very front of `hay`. -/
def charsLeadWith : List Char → List Char → Bool
  | [], _ => true
  | _ :: _, [] => false
  | c :: cs, d :: ds => c == d && charsLeadWith cs ds

/-- Check that `needle` occurs contiguously anywhere in `hay`
(JS `String.prototype.includes`). -/
def charsContain (hay needle : List Char) : Bool :=
  charsLeadWith needle hay ||
    match hay with
    | [] => false
    | _ :: rest => charsContain rest needle

/-- JS `hay.includes(needle)` on strings. -/
def strContainsSub (hay needle : String) : Bool :=
  charsContain hay.toList needle.toList

/-- JS `String.prototype.toLowerCase`, modelled character-wise (the ASCII
range, which is what `Char.toLower` maps; the handler lowercases both
sides of every comparison with it). -/
def jsToLower (s : String) : String :=
  ⟨s.data.map Char.toLower⟩

/-- The status-filter step of the handler:
`if (status && status !== 'all') filter(invoice.status === status)`.
An absent parameter and the empty string are falsy and skip the filter. -/
def statusFilterFn (q : Option String) (l : List Invoice) : List Invoice :=
  match q with
  | none => l
  | some s =>
    if s ≠ "" ∧ s ≠ "all" then l.filter (fun inv => statusStr inv.status == s) else l

/-- The per-record search predicate of the handler:
`fileName.toLowerCase().includes(searchLower) || clientName.toLowerCase().includes(searchLower)`. -/
def matchesSearch (s : String) (inv : Invoice) : Bool :=
  strContainsSub (jsToLower inv.fileName) (jsToLower s) ||
    strContainsSub (jsToLower inv.clientName) (jsToLower s)

/-- The search-filter step of the handler: `if (search) filter(...)`;
an absent parameter and the empty string are falsy and skip the filter. -/
def searchFilterFn (q : Option String) (l : List Invoice) : List Invoice :=
  match q with
  | none => l
  | some s => if s ≠ "" then l.filter (fun inv => matchesSearch s inv) else l

/-- Resolve one `slice` index against a length, as ECMAScript does:
negative indices count from the end, and the result is clamped to
`[0, len]`. -/
def sliceIx (len : Nat) (i : Int) : Int :=
  if i < 0 then max ((len : Int) + i) 0 else min i len

/-- JS `Array.prototype.slice(s, e)`: negative indices count from the end,
both indices are clamped to `[0, length]`, and an empty range yields the
empty array. -/
def jsSlice (l : List Invoice) (s e : Int) : List Invoice :=
  (l.drop (sliceIx l.length s).toNat).take (sliceIx l.length e - sliceIx l.length s).toNat

/-- The JSON response shape `InvoiceListResponse` of `server/types.ts`. -/
structure ListResponse where
  data : List Invoice
  total : Nat
  page : Int
  limit : Int
deriving DecidableEq

/-- The body of the `GET /api/invoices` handler after parameter parsing:
status filter, search filter, stable sort, then the slice
`[(page-1)*limit, (page-1)*limit + limit)`; `total` is the length of the
filtered (pre-pagination) array. -/
def listInvoices (st : List Invoice) (page limit : Int) (sortBy sortOrder : String)
    (status search : Option String) : ListResponse :=
  let filtered := searchFilterFn search (statusFilterFn status st)
  let sorted := sortInvoices sortBy sortOrder filtered
  let start := (page - 1) * limit
  { data := jsSlice sorted start (start + limit)
    total := sorted.length
    page := page
    limit := limit }

/-- Accumulate the leading run of decimal digits (JS `parseInt` stops at
the first non-digit). -/
def readDigits : List Char → Nat → Nat
  | [], acc => acc
  | c :: cs, acc => if c.isDigit then readDigits cs (acc * 10 + (c.toNat - 48)) else acc

/-- JS `parseInt` on the decimal strings the query layer can receive:
an optional sign followed by at least one digit parses to that integer
(ignoring trailing garbage); anything else is `NaN`, modelled as `none`. -/
def parseIntJS (s : String) : Option Int :=
  match s.toList with
  | '-' :: c :: cs => if c.isDigit then some (-(readDigits (c :: cs) 0 : Int)) else none
  | '+' :: c :: cs => if c.isDigit then some ((readDigits (c :: cs) 0 : Int)) else none
  | c :: cs => if c.isDigit then some ((readDigits (c :: cs) 0 : Int)) else none
  | [] => none

/-- The handler's `parseInt(req.query.x as string) || d`: an absent
parameter, an unparsable value (`NaN`), and the value 0 are all falsy and
fall back to the default; every other parsed value — negative ones
included — is used as is. -/
def intParam (q : Option String) (d : Int) : Int :=
  match q with
  | none => d
  | some s =>
    match parseIntJS s with
    | none => d
    | some n => if n = 0 then d else n

/-- The handler's `(req.query.x as string) || d` for string parameters:
absent or empty falls back to the default. -/
def strParamOr (q : Option String) (d : String) : String :=
  match q with
  | none => d
  | some s => if s = "" then d else s

/-- The full `GET /api/invoices` handler, raw query strings in
(lines 102–107 of `server/index.ts` parse the parameters, then the
filter/sort/paginate pipeline runs). -/
def listEndpoint (st : List Invoice)
    (pageQ limitQ sortByQ sortOrderQ statusQ searchQ : Option String) : ListResponse :=
  listInvoices st (intParam pageQ 1) (intParam limitQ 10)
    (strParamOr sortByQ "uploadDate") (strParamOr sortOrderQ "desc") statusQ searchQ

/-! ### The status simulator (`simulateProcessing`) -/

/-- Rewrite the first record with the given id (the record
`invoices.get(id)` returns, mutated in place); if no record has the id,
this is the function's silent no-op branch (`if (!invoice) return`). -/
def updateById (st : List Invoice) (id : String) (f : Invoice → Invoice) : List Invoice :=
  match st with
  | [] => []
  | inv :: rest => if inv.id == id then f inv :: rest else inv :: updateById rest id f

/-- The store lookup `invoices.get(id)`. -/
def getInv (st : List Invoice) (id : String) : Option Invoice :=
  st.find? (fun inv => inv.id == id)

/-- The record update the Start phase of `simulateProcessing` performs:
`invoice.status = 'Processing'; invoice.processingStartTime = new Date()`. -/
def startUpd (t : Int) (inv : Invoice) : Invoice :=
  { inv with status := .Processing, processingStartTime := some t }

/-- The record update the Finish callback performs:
`updatedInvoice.status = isSuccess ? 'Processed' : 'Failed';
updatedInvoice.processingEndTime = new Date()`. -/
def finishUpd (ok : Bool) (t : Int) (inv : Invoice) : Invoice :=
  { inv with status := if ok then .Processed else .Failed, processingEndTime := some t }

/-- The Start step of the simulator at time `t`: look up by id, silently
no-op if absent, otherwise move to Processing and stamp the start time. -/
def startStep (st : List Invoice) (id : String) (t : Int) : List Invoice :=
  updateById st id (startUpd t)

/-- The Finish step of the simulator at time `t` with drawn outcome `ok`
(`Math.random() < 0.8`): look up by id, silently no-op if absent,
otherwise move to the terminal state and stamp the end time. -/
def finishStep (st : List Invoice) (id : String) (ok : Bool) (t : Int) : List Invoice :=
  updateById st id (finishUpd ok t)

/-- One event of the system: the upload handler inserting a freshly
created record (`invoices.set(invoice.id, invoice)`), or one of the two
timer callbacks of `simulateProcessing` firing. -/
inductive Event where
  | upload (inv : Invoice)
  | start (id : String) (t : Int)
  | finish (id : String) (ok : Bool) (t : Int)

/-- Apply one event to the store. -/
def stepEv (st : List Invoice) : Event → List Invoice
  | .upload inv => st ++ [inv]
  | .start id t => startStep st id t
  | .finish id ok t => finishStep st id ok t

/-- Run a sequence of events from a given store. -/
def runFrom (st : List Invoice) (tr : List Event) : List Invoice :=
  tr.foldl stepEv st

/-- Run a sequence of events from the empty store the process starts with. -/
def runTrace (tr : List Event) : List Invoice :=
  runFrom [] tr

/-- Update one point of a phase map. -/
def bump (φ : String → Nat) (id : String) (n : Nat) : String → Nat :=
  fun j => if j = id then n else φ j

/-- The event sequences the system can generate, tracked by a per-id
phase (0 = never uploaded, 1 = uploaded, 2 = Start fired, 3 = Finish
fired). The upload handler creates each record exactly once with a fresh
uuid, in state Pending with both processing timestamps unset, and schedules
`simulateProcessing` for it; that call fires Start once, and Finish is
scheduled only inside Start's body, so it fires once and only afterwards.
Timers of different invoices interleave arbitrarily. -/
inductive ValidFrom : (String → Nat) → List Event → Prop where
  | nil (φ : String → Nat) : ValidFrom φ []
  | upload (φ : String → Nat) (inv : Invoice) (tr : List Event)
      (hst : inv.status = .Pending)
      (hps : inv.processingStartTime = none)
      (hpe : inv.processingEndTime = none)
      (hφ : φ inv.id = 0)
      (htr : ValidFrom (bump φ inv.id 1) tr) :
      ValidFrom φ (.upload inv :: tr)
  | start (φ : String → Nat) (id : String) (t : Int) (tr : List Event)
      (hφ : φ id = 1)
      (htr : ValidFrom (bump φ id 2) tr) :
      ValidFrom φ (.start id t :: tr)
  | finish (φ : String → Nat) (id : String) (ok : Bool) (t : Int) (tr : List Event)
      (hφ : φ id = 2)
      (htr : ValidFrom (bump φ id 3) tr) :
      ValidFrom φ (.finish id ok t :: tr)

/-- A trace the freshly started process can generate. -/
def ValidTrace (tr : List Event) : Prop :=
  ValidFrom (fun _ => 0) tr

/-- The status the store records for an id, if any. -/
def stId (st : List Invoice) (id : String) : Option Status :=
  (getInv st id).map (·.status)

/-- The forward status moves the specification allows for one event:
stay put, appear as Pending, Pending → Processing, or
Processing → Processed/Failed. In particular nothing leaves a terminal
state and a terminal state is entered only from Processing. -/
def allowedMove (s s' : Option Status) : Prop :=
  s = s' ∨
    (s = none ∧ s' = some .Pending) ∨
    (s = some .Pending ∧ s' = some .Processing) ∨
    (s = some .Processing ∧ (s' = some .Processed ∨ s' = some .Failed))

/-- Invariant tying a phase map to a store: phase 0 means no record with
the id, phase 1 a Pending record, phase 2 a Processing record, phase 3 a
terminal record. -/
def phaseConsistent (φ : String → Nat) (st : List Invoice) : Prop :=
  ∀ id,
    (φ id = 0 → stId st id = none) ∧
    (φ id = 1 → stId st id = some .Pending) ∧
    (φ id = 2 → stId st id = some .Processing) ∧
    (φ id = 3 → stId st id = some .Processed ∨ stId st id = some .Failed) ∧
    φ id ≤ 3

/-! ### Predicate forms of the two filters, and the spec-side search notion -/

/-- The per-record effect of the status-filter step as a total predicate:
records kept when the filter is skipped (absent, empty, or "all") or when
the status matches. -/
def statusPred (q : Option String) (inv : Invoice) : Bool :=
  match q with
  | none => true
  | some s => if s ≠ "" ∧ s ≠ "all" then statusStr inv.status == s else true

/-- The per-record effect of the search-filter step as a total predicate. -/
def searchPred (q : Option String) (inv : Invoice) : Bool :=
  match q with
  | none => true
  | some s => if s ≠ "" then matchesSearch s inv else true

/-- Spec-side statement that `needle` occurs in `hay` as a
case-insensitive contiguous substring. -/
def CiSubstr (needle hay : String) : Prop :=
  ∃ pre post, (jsToLower hay).toList = pre ++ (jsToLower needle).toList ++ post

/-- The field names of the `Invoice` record; `a[sortBy]` is `undefined`
exactly when `sortBy` is none of these. -/
def invoiceFieldNames : List String :=
  ["id", "fileName", "fileSize", "clientName", "amount", "uploadDate",
   "status", "filePath", "processingStartTime", "processingEndTime"]

/-! ### Concrete data used by witnesses and counterexamples -/

/-- Build a demo invoice. -/
def mkDemo (id fn : String) (amt ud : Int) : Invoice :=
  ⟨id, fn, 100, "Acme Corporation", amt, ud, .Pending, "/uploads/x", none, none⟩

/-- The first record of the spec's tied-amount scenario, amount 500. -/
def inv500 : Invoice := mkDemo "a" "a.pdf" 500 1

/-- The first tied record of the scenario, amount 100. -/
def inv100a : Invoice := mkDemo "b" "b.pdf" 100 2

/-- The second tied record of the scenario, amount 100. -/
def inv100b : Invoice := mkDemo "c" "c.pdf" 100 3

/-- The last record of the scenario, amount 900. -/
def inv900 : Invoice := mkDemo "d" "d.pdf" 900 4

/-- The store of the spec's scenario: amounts [500, 100, 100, 900] in
upload order. -/
def tiedStore : List Invoice := [inv500, inv100a, inv100b, inv900]

/-- Two records whose file-name order disagrees with their insertion
order. -/
def invN1 : Invoice := mkDemo "x1" "b.pdf" 1 1

/-- See `invN1`. -/
def invN2 : Invoice := mkDemo "x2" "a.pdf" 2 2

/-- A ten-record store with distinct upload dates. -/
def demoStore : List Invoice :=
  (List.range 10).map (fun j => mkDemo (toString j) "f.pdf" (j : Int) (j : Int))

/-- A five-record store for the out-of-range-page scenario. -/
def fiveStore : List Invoice :=
  (List.range 5).map (fun j => mkDemo (toString j) "f.pdf" (j : Int) (j : Int))

/-- A single freshly uploaded record used by the trace witness. -/
def wInv : Invoice := mkDemo "w" "w.pdf" 10 0

/-! ## Helper lemmas -/

theorem statusFilterFn_eq_filter (q : Option String) (l : List Invoice) :
    statusFilterFn q l = l.filter (statusPred q) := by
  cases q with
  | none =>
    have hp : statusPred (none : Option String) = fun _ : Invoice => true := rfl
    rw [hp, List.filter_true]
    rfl
  | some s =>
    by_cases h : s ≠ "" ∧ s ≠ "all"
    · have hp : statusPred (some s) = fun inv => statusStr inv.status == s := by
        funext inv; simp [statusPred, h]
      rw [hp]; simp [statusFilterFn, h]
    · have hp : statusPred (some s) = fun _ : Invoice => true := by
        funext inv; simp [statusPred, h]
      rw [hp, List.filter_true]; simp [statusFilterFn, h]

theorem searchFilterFn_eq_filter (q : Option String) (l : List Invoice) :
    searchFilterFn q l = l.filter (searchPred q) := by
  cases q with
  | none =>
    have hp : searchPred (none : Option String) = fun _ : Invoice => true := rfl
    rw [hp, List.filter_true]
    rfl
  | some s =>
    by_cases h : s ≠ ""
    · have hp : searchPred (some s) = fun inv => matchesSearch s inv := by
        funext inv; simp [searchPred, h]
      rw [hp]; simp [searchFilterFn, h]
    · have hp : searchPred (some s) = fun _ : Invoice => true := by
        funext inv; simp [searchPred, h]
      rw [hp, List.filter_true]; simp [searchFilterFn, h]

theorem sliceIx_of_len_le (len : Nat) (i : Int) (h : (len : Int) ≤ i) :
    sliceIx len i = len := by
  unfold sliceIx
  rw [if_neg (by omega)]
  omega

theorem jsSlice_of_len_le (l : List Invoice) (s e : Int) (h : (l.length : Int) ≤ s) :
    jsSlice l s e = [] := by
  unfold jsSlice
  rw [sliceIx_of_len_le _ _ h, Int.toNat_natCast, List.drop_length, List.take_nil]

theorem updateById_of_getInv_none (st : List Invoice) (id : String) (f : Invoice → Invoice)
    (h : getInv st id = none) : updateById st id f = st := by
  induction st with
  | nil => rfl
  | cons a rest ih =>
    unfold getInv at h
    rw [List.find?_cons] at h
    cases hb : a.id == id with
    | true => rw [hb] at h; exact absurd h (by simp)
    | false =>
      rw [hb] at h
      unfold updateById
      rw [if_neg (by simp [hb])]
      rw [ih h]

theorem length_sortInvoices (f ord : String) (l : List Invoice) :
    (sortInvoices f ord l).length = l.length :=
  List.length_mergeSort l

theorem mergeSort_pair {α : Type} (le : α → α → Bool) (a b : α) :
    List.mergeSort [a, b] le = List.merge [a] [b] le := by
  simp [List.mergeSort, List.splitInTwo]

theorem mergeSort_quad {α : Type} (le : α → α → Bool) (a b c d : α) :
    List.mergeSort [a, b, c, d] le =
      List.merge (List.mergeSort [a, b] le) (List.mergeSort [c, d] le) le := by
  simp [List.mergeSort, List.splitInTwo]

theorem jsGT_self (v : JSVal) : jsGT v v = false := by
  cases v <;> simp [jsGT]

theorem jsLT_self (v : JSVal) : jsLT v v = false := by
  cases v <;> simp [jsLT]

theorem jsGT_num (x y : Int) : jsGT (.num x) (.num y) = decide (y < x) := rfl

theorem jsGT_str (x y : String) : jsGT (.str x) (.str y) = decide (y < x) := rfl

theorem jsLT_num (x y : Int) : jsLT (.num x) (.num y) = decide (x < y) := rfl

theorem jsLT_str (x y : String) : jsLT (.str x) (.str y) = decide (x < y) := rfl

theorem sortLe_asc (f : String) (a b : Invoice) :
    sortLe f "asc" a b = !jsGT (sortVal f a) (sortVal f b) := by
  unfold sortLe jsCmp
  rw [if_pos rfl]
  cases h : jsGT (sortVal f a) (sortVal f b) <;> decide

theorem sortLe_not_asc (f ord : String) (hord : ord ≠ "asc") (a b : Invoice) :
    sortLe f ord a b = !jsLT (sortVal f a) (sortVal f b) := by
  unfold sortLe jsCmp
  rw [if_neg hord]
  cases h : jsLT (sortVal f a) (sortVal f b) <;> decide

theorem sortLe_of_eq_keys (f ord : String) (a b : Invoice)
    (h : sortVal f a = sortVal f b) : sortLe f ord a b = true := by
  by_cases hord : ord = "asc"
  · subst hord; rw [sortLe_asc, h, jsGT_self]; rfl
  · rw [sortLe_not_asc f ord hord, h, jsLT_self]; rfl

theorem sortVal_amount (inv : Invoice) : sortVal "amount" inv = .num inv.amount := rfl

theorem sortVal_uploadDate (inv : Invoice) : sortVal "uploadDate" inv = .num inv.uploadDate := rfl

theorem sortVal_clientName (inv : Invoice) : sortVal "clientName" inv = .str inv.clientName := rfl

theorem sortLe_trans_of_hom (f ord : String)
    (hf : (∀ inv, ∃ n, sortVal f inv = JSVal.num n) ∨
      (∀ inv, ∃ s, sortVal f inv = JSVal.str s)) :
    ∀ a b c : Invoice, sortLe f ord a b = true → sortLe f ord b c = true →
      sortLe f ord a c = true := by
  intro a b c h1 h2
  by_cases hord : ord = "asc"
  · subst hord
    rw [sortLe_asc] at h1 h2 ⊢
    cases hf with
    | inl hn =>
      obtain ⟨x, hx⟩ := hn a; obtain ⟨y, hy⟩ := hn b; obtain ⟨z, hz⟩ := hn c
      rw [hx, hy, jsGT_num] at h1
      rw [hy, hz, jsGT_num] at h2
      rw [hx, hz, jsGT_num]
      simp only [Bool.not_eq_true', decide_eq_false_iff_not] at h1 h2 ⊢
      omega
    | inr hs =>
      obtain ⟨x, hx⟩ := hs a; obtain ⟨y, hy⟩ := hs b; obtain ⟨z, hz⟩ := hs c
      rw [hx, hy, jsGT_str] at h1
      rw [hy, hz, jsGT_str] at h2
      rw [hx, hz, jsGT_str]
      simp only [Bool.not_eq_true', decide_eq_false_iff_not] at h1 h2 ⊢
      exact not_lt.mpr (le_trans (not_lt.mp h1) (not_lt.mp h2))
  · rw [sortLe_not_asc f ord hord] at h1 h2 ⊢
    cases hf with
    | inl hn =>
      obtain ⟨x, hx⟩ := hn a; obtain ⟨y, hy⟩ := hn b; obtain ⟨z, hz⟩ := hn c
      rw [hx, hy, jsLT_num] at h1
      rw [hy, hz, jsLT_num] at h2
      rw [hx, hz, jsLT_num]
      simp only [Bool.not_eq_true', decide_eq_false_iff_not] at h1 h2 ⊢
      omega
    | inr hs =>
      obtain ⟨x, hx⟩ := hs a; obtain ⟨y, hy⟩ := hs b; obtain ⟨z, hz⟩ := hs c
      rw [hx, hy, jsLT_str] at h1
      rw [hy, hz, jsLT_str] at h2
      rw [hx, hz, jsLT_str]
      simp only [Bool.not_eq_true', decide_eq_false_iff_not] at h1 h2 ⊢
      exact not_lt.mpr (le_trans (not_lt.mp h2) (not_lt.mp h1))

theorem sortLe_total_of_hom (f ord : String)
    (hf : (∀ inv, ∃ n, sortVal f inv = JSVal.num n) ∨
      (∀ inv, ∃ s, sortVal f inv = JSVal.str s)) :
    ∀ a b : Invoice, (sortLe f ord a b || sortLe f ord b a) = true := by
  intro a b
  by_cases hord : ord = "asc"
  · subst hord
    rw [sortLe_asc, sortLe_asc]
    cases hf with
    | inl hn =>
      obtain ⟨x, hx⟩ := hn a; obtain ⟨y, hy⟩ := hn b
      rw [hx, hy, jsGT_num, jsGT_num]
      simp only [Bool.or_eq_true, Bool.not_eq_true', decide_eq_false_iff_not]
      omega
    | inr hs =>
      obtain ⟨x, hx⟩ := hs a; obtain ⟨y, hy⟩ := hs b
      rw [hx, hy, jsGT_str, jsGT_str]
      simp only [Bool.or_eq_true, Bool.not_eq_true', decide_eq_false_iff_not]
      rcases le_total x y with h | h
      · exact Or.inl (not_lt.mpr h)
      · exact Or.inr (not_lt.mpr h)
  · rw [sortLe_not_asc f ord hord, sortLe_not_asc f ord hord]
    cases hf with
    | inl hn =>
      obtain ⟨x, hx⟩ := hn a; obtain ⟨y, hy⟩ := hn b
      rw [hx, hy, jsLT_num, jsLT_num]
      simp only [Bool.or_eq_true, Bool.not_eq_true', decide_eq_false_iff_not]
      omega
    | inr hs =>
      obtain ⟨x, hx⟩ := hs a; obtain ⟨y, hy⟩ := hs b
      rw [hx, hy, jsLT_str, jsLT_str]
      simp only [Bool.or_eq_true, Bool.not_eq_true', decide_eq_false_iff_not]
      rcases le_total x y with h | h
      · exact Or.inr (not_lt.mpr h)
      · exact Or.inl (not_lt.mpr h)

theorem filter_mergeSort_congr {α : Type} (le : α → α → Bool) (p : α → Bool) (l : List α)
    (htrans : ∀ a b c, le a b = true → le b c = true → le a c = true)
    (htotal : ∀ a b, (le a b || le b a) = true)
    (hp : ∀ a b, p a = true → p b = true → le a b = true) :
    (l.mergeSort le).filter p = l.filter p := by
  have hpw : (l.filter p).Pairwise fun a b => le a b = true :=
    List.pairwise_of_forall_mem_list fun a ha b hb =>
      hp a b (List.of_mem_filter ha) (List.of_mem_filter hb)
  have h₁ : (l.filter p).Sublist (l.mergeSort le) :=
    List.sublist_mergeSort htrans htotal hpw (List.filter_sublist l)
  have hself : (l.filter p).filter p = l.filter p :=
    List.filter_eq_self.mpr fun a ha => List.of_mem_filter ha
  have h₂ : (l.filter p).Sublist ((l.mergeSort le).filter p) := by
    have := h₁.filter p
    rwa [hself] at this
  have h₃ : ((l.mergeSort le).filter p).length = (l.filter p).length :=
    ((List.mergeSort_perm l le).filter p).length_eq
  exact (h₂.eq_of_length h₃.symm).symm

/-! ## Claims -/

/-- C1: for every input collection and every sortField among uploadDate,
amount and clientName, the sort is stable in both directions (records
with equal sort keys keep their relative input order — stated as: the
subsequence with any fixed key value is unchanged); sorting by amount
ascending and descending give exactly reversed orders when all amounts
are distinct; and on the scenario store with amounts [500, 100, 100, 900]
the ascending sort is [100 (first), 100 (second), 500, 900] with the tied
pair in original relative order. -/
theorem sort_stable_and_asc_desc_reverse :
    (∀ f, f = "uploadDate" ∨ f = "amount" ∨ f = "clientName" →
      ∀ (ord : String) (l : List Invoice) (v : JSVal),
        (sortInvoices f ord l).filter (fun a => sortVal f a == v) =
          l.filter (fun a => sortVal f a == v)) ∧
    (∀ l : List Invoice, l.Pairwise (fun a b => a.amount ≠ b.amount) →
      sortInvoices "amount" "desc" l = (sortInvoices "amount" "asc" l).reverse) ∧
    sortInvoices "amount" "asc" tiedStore = [inv100a, inv100b, inv500, inv900] := by
  refine ⟨?_, ?_, ?_⟩
  · intro f hf ord l v
    have hhom : (∀ inv, ∃ n, sortVal f inv = JSVal.num n) ∨
        (∀ inv, ∃ s, sortVal f inv = JSVal.str s) := by
      rcases hf with h | h | h <;> subst h
      · exact Or.inl fun inv => ⟨inv.uploadDate, sortVal_uploadDate inv⟩
      · exact Or.inl fun inv => ⟨inv.amount, sortVal_amount inv⟩
      · exact Or.inr fun inv => ⟨inv.clientName, sortVal_clientName inv⟩
    apply filter_mergeSort_congr (sortLe f ord) _ l
      (sortLe_trans_of_hom f ord hhom) (sortLe_total_of_hom f ord hhom)
    intro a b ha hb
    have ha' : sortVal f a = v := by simpa using ha
    have hb' : sortVal f b = v := by simpa using hb
    exact sortLe_of_eq_keys f ord a b (ha'.trans hb'.symm)
  · intro l hdist
    have hnum : (∀ inv, ∃ n, sortVal "amount" inv = JSVal.num n) ∨
        (∀ inv, ∃ s, sortVal "amount" inv = JSVal.str s) :=
      Or.inl fun inv => ⟨inv.amount, sortVal_amount inv⟩
    have sortedA := List.sorted_mergeSort
      (sortLe_trans_of_hom "amount" "asc" hnum) (sortLe_total_of_hom "amount" "asc" hnum) l
    have sortedD := List.sorted_mergeSort
      (sortLe_trans_of_hom "amount" "desc" hnum) (sortLe_total_of_hom "amount" "desc" hnum) l
    have permA : (sortInvoices "amount" "asc" l).Perm l := List.mergeSort_perm l _
    have permD : (sortInvoices "amount" "desc" l).Perm l := List.mergeSort_perm l _
    have neA : (sortInvoices "amount" "asc" l).Pairwise fun a b => a.amount ≠ b.amount :=
      (List.Perm.pairwise_iff (fun h => Ne.symm h) permA).mpr hdist
    have neD : (sortInvoices "amount" "desc" l).Pairwise fun a b => a.amount ≠ b.amount :=
      (List.Perm.pairwise_iff (fun h => Ne.symm h) permD).mpr hdist
    have strictA : (sortInvoices "amount" "asc" l).Pairwise
        fun a b => a.amount < b.amount := by
      refine (sortedA.and neA).imp ?_
      rintro a b ⟨hle, hne⟩
      rw [sortLe_asc, sortVal_amount, sortVal_amount, jsGT_num] at hle
      simp only [Bool.not_eq_true', decide_eq_false_iff_not] at hle
      omega
    have strictD : (sortInvoices "amount" "desc" l).Pairwise
        fun a b => b.amount < a.amount := by
      refine (sortedD.and neD).imp ?_
      rintro a b ⟨hle, hne⟩
      rw [sortLe_not_asc "amount" "desc" (by decide), sortVal_amount, sortVal_amount,
        jsLT_num] at hle
      simp only [Bool.not_eq_true', decide_eq_false_iff_not] at hle
      omega
    have strictDrev : (sortInvoices "amount" "desc" l).reverse.Pairwise
        fun a b => a.amount < b.amount := List.pairwise_reverse.mpr strictD
    have permRD : (sortInvoices "amount" "desc" l).reverse.Perm
        (sortInvoices "amount" "asc" l) :=
      ((List.reverse_perm _).trans permD).trans permA.symm
    have heq : (sortInvoices "amount" "desc" l).reverse = sortInvoices "amount" "asc" l :=
      @List.eq_of_perm_of_sorted Invoice (fun a b => a.amount < b.amount)
        ⟨fun a b h1 h2 => absurd (lt_trans h1 h2) (lt_irrefl _)⟩ _ _ permRD strictDrev strictA
    rw [← heq, List.reverse_reverse]
  · show List.mergeSort [inv500, inv100a, inv100b, inv900] (sortLe "amount" "asc") = _
    rw [mergeSort_quad, mergeSort_pair, mergeSort_pair]
    simp +decide [List.merge, sortLe, jsCmp, sortVal, fieldVal, jsGT,
      inv500, inv100a, inv100b, inv900, mkDemo]

/-- Witness for C1: stability instantiated at sortField amount, ascending,
on the scenario store with key value 100, and the asc/desc reversal
instantiated on a two-record store with distinct amounts. -/
theorem sort_stable_and_asc_desc_reverse_witness :
    ((sortInvoices "amount" "asc" tiedStore).filter
        (fun a => sortVal "amount" a == JSVal.num 100) =
      tiedStore.filter (fun a => sortVal "amount" a == JSVal.num 100)) ∧
    sortInvoices "amount" "desc" [invN1, invN2] =
      (sortInvoices "amount" "asc" [invN1, invN2]).reverse :=
  ⟨sort_stable_and_asc_desc_reverse.1 "amount" (Or.inr (Or.inl rfl)) "asc" tiedStore
      (JSVal.num 100),
    sort_stable_and_asc_desc_reverse.2.1 [invN1, invN2] (by decide)⟩

theorem sortVal_undefined_of_unknown (f : String) (hf : f ∉ invoiceFieldNames) (inv : Invoice) :
    sortVal f inv = .undefined := by
  simp only [invoiceFieldNames, List.mem_cons, List.not_mem_nil, or_false, not_or] at hf
  obtain ⟨h1, h2, h3, h4, h5, h6, h7, h8, h9, h10⟩ := hf
  simp [sortVal, fieldVal, h1, h2, h3, h4, h5, h6, h7, h8, h9, h10]

theorem sortLe_unknown_true (f ord : String) (hf : f ∉ invoiceFieldNames) (a b : Invoice) :
    sortLe f ord a b = true := by
  by_cases hord : ord = "asc"
  · subst hord
    rw [sortLe_asc, sortVal_undefined_of_unknown f hf, sortVal_undefined_of_unknown f hf]
    rfl
  · rw [sortLe_not_asc f ord hord, sortVal_undefined_of_unknown f hf,
      sortVal_undefined_of_unknown f hf]
    rfl

/-- C2 counterexample: "fileName" lies outside {uploadDate, amount,
clientName}, yet sorting by it is not a no-op — with two records whose
file names disagree with insertion order, the returned data is not the
post-filter sequence in original relative order. -/
theorem unknown_sortBy_claim_false :
    (listInvoices [invN1, invN2] 1 10 "fileName" "asc" none none).data ≠ [invN1, invN2] := by
  have hsort : sortInvoices "fileName" "asc" [invN1, invN2] = [invN2, invN1] := by
    show List.mergeSort [invN1, invN2] (sortLe "fileName" "asc") = _
    rw [mergeSort_pair]
    simp +decide [List.merge, sortLe, jsCmp, sortVal, fieldVal, jsGT, invN1, invN2, mkDemo]
  have hdata : (listInvoices [invN1, invN2] 1 10 "fileName" "asc" none none).data =
      jsSlice (sortInvoices "fileName" "asc" [invN1, invN2]) 0 10 := rfl
  rw [hdata, hsort]
  decide

/-- C2 amended: for every sortBy outside the set of `Invoice` field
names (so that `a[sortBy]` is `undefined`), the engine does not crash
(the pipeline is a total function) and applies a deterministic no-op
ordering — the sort is the identity and the returned data is the
pagination of the post-filter sequence in its original relative order —
for every sortOrder value, hence for both asc and desc. A sortBy naming
one of the other record fields (such as fileName) instead sorts by that
field's value. -/
theorem unknown_sortBy_is_noop (f : String) (hf : f ∉ invoiceFieldNames) (ord : String)
    (l st : List Invoice) (page limit : Int) (status search : Option String) :
    sortInvoices f ord l = l ∧
    (listInvoices st page limit f ord status search).data =
      jsSlice (searchFilterFn search (statusFilterFn status st))
        ((page - 1) * limit) ((page - 1) * limit + limit) := by
  have hid : ∀ l' : List Invoice, sortInvoices f ord l' = l' := by
    intro l'
    apply List.mergeSort_of_sorted
    exact List.pairwise_of_forall_mem_list fun a _ b _ => sortLe_unknown_true f ord hf a b
  refine ⟨hid l, ?_⟩
  show jsSlice (sortInvoices f ord (searchFilterFn search (statusFilterFn status st))) _ _ = _
  rw [hid]

/-- Witness for C2 (amended): the unknown field name "bogus" leaves the
scenario store in input order, for the sort itself and for the endpoint
data. -/
theorem unknown_sortBy_is_noop_witness :
    sortInvoices "bogus" "asc" tiedStore = tiedStore ∧
    (listInvoices tiedStore 1 10 "bogus" "asc" none none).data =
      jsSlice (searchFilterFn none (statusFilterFn none tiedStore)) 0 10 :=
  unknown_sortBy_is_noop "bogus" (by decide) "asc" tiedStore tiedStore 1 10 none none

theorem getInv_updateById_self (st : List Invoice) (id : String) (f : Invoice → Invoice)
    (hf : ∀ x, (f x).id = x.id) (inv : Invoice) (h : getInv st id = some inv) :
    getInv (updateById st id f) id = some (f inv) := by
  induction st with
  | nil => exact absurd h (by simp [getInv])
  | cons a rest ih =>
    unfold getInv at h ⊢
    rw [List.find?_cons] at h
    cases hb : a.id == id with
    | true =>
      rw [hb] at h
      have ha : a = inv := by simpa using h
      unfold updateById
      rw [if_pos hb, List.find?_cons]
      have hfb : ((f a).id == id) = true := by rw [hf a]; exact hb
      rw [hfb, ha]
    | false =>
      rw [hb] at h
      unfold updateById
      rw [if_neg (by simp [hb]), List.find?_cons]
      have : ((a.id == id) = true) = False := by simp [hb]
      rw [hb]
      exact ih h

theorem getInv_updateById_ne (st : List Invoice) (id id' : String) (f : Invoice → Invoice)
    (hf : ∀ x, (f x).id = x.id) (h : id' ≠ id) :
    getInv (updateById st id f) id' = getInv st id' := by
  induction st with
  | nil => rfl
  | cons a rest ih =>
    unfold updateById
    cases hb : a.id == id with
    | true =>
      rw [if_pos rfl]
      have haid : a.id = id := by simpa using hb
      have hne : ((f a).id == id') = false := by
        rw [hf a, haid]
        simp [Ne.symm h]
      have hne' : (a.id == id') = false := by rw [haid]; simp [Ne.symm h]
      unfold getInv
      rw [List.find?_cons, List.find?_cons, hne, hne']
    | false =>
      rw [if_neg (by simp [hb])]
      unfold getInv
      rw [List.find?_cons, List.find?_cons]
      cases hb' : a.id == id' with
      | true => rfl
      | false => exact ih

theorem getInv_append (st st' : List Invoice) (id : String) :
    getInv (st ++ st') id = (getInv st id).or (getInv st' id) :=
  List.find?_append

theorem getInv_singleton_ne (inv : Invoice) (id : String) (h : inv.id ≠ id) :
    getInv [inv] id = none := by
  simp [getInv, List.find?_cons, h]

theorem stId_append_ne (st : List Invoice) (inv : Invoice) (id : String) (h : inv.id ≠ id) :
    stId (st ++ [inv]) id = stId st id := by
  unfold stId
  rw [getInv_append, getInv_singleton_ne inv id h, Option.or_none]

theorem stId_append_self (st : List Invoice) (inv : Invoice)
    (h : getInv st inv.id = none) : stId (st ++ [inv]) inv.id = some inv.status := by
  unfold stId
  rw [getInv_append, h, Option.none_or]
  simp [getInv, List.find?_cons]

theorem stId_update_ne (st : List Invoice) (id₀ id : String) (f : Invoice → Invoice)
    (hf : ∀ x, (f x).id = x.id) (h : id ≠ id₀) :
    stId (updateById st id₀ f) id = stId st id := by
  unfold stId
  rw [getInv_updateById_ne st id₀ id f hf h]

theorem stId_update_self (st : List Invoice) (id₀ : String) (f : Invoice → Invoice)
    (hf : ∀ x, (f x).id = x.id) (inv0 : Invoice) (h : getInv st id₀ = some inv0) :
    stId (updateById st id₀ f) id₀ = some (f inv0).status := by
  unfold stId
  rw [getInv_updateById_self st id₀ f hf inv0 h]
  rfl

theorem stId_none_getInv (st : List Invoice) (id : String) (h : stId st id = none) :
    getInv st id = none :=
  Option.map_eq_none'.mp h

theorem stId_some_status (st : List Invoice) (id : String) (s : Status)
    (h : stId st id = some s) : ∃ inv0, getInv st id = some inv0 ∧ inv0.status = s := by
  obtain ⟨inv0, hg, hs⟩ := Option.map_eq_some'.mp h
  exact ⟨inv0, hg, hs⟩

theorem step_preserve (φ : String → Nat) (st : List Invoice) (e : Event) (tr : List Event)
    (hc : phaseConsistent φ st) (hv : ValidFrom φ (e :: tr)) :
    (∀ id, allowedMove (stId st id) (stId (stepEv st e) id)) ∧
    ∃ φ', ValidFrom φ' tr ∧ phaseConsistent φ' (stepEv st e) := by
  cases hv with
  | upload φ inv tr hst hps hpe hφ htr =>
    have hnone : stId st inv.id = none := (hc inv.id).1 hφ
    have hgnone : getInv st inv.id = none := stId_none_getInv st inv.id hnone
    have hnew : stId (stepEv st (.upload inv)) inv.id = some .Pending := by
      show stId (st ++ [inv]) inv.id = some .Pending
      rw [stId_append_self st inv hgnone, hst]
    have hother : ∀ id, inv.id ≠ id → stId (stepEv st (.upload inv)) id = stId st id :=
      fun id hne => stId_append_ne st inv id hne
    refine ⟨?_, bump φ inv.id 1, htr, ?_⟩
    · intro id
      by_cases hid : inv.id = id
      · exact Or.inr (Or.inl ⟨hid ▸ hnone, hid ▸ hnew⟩)
      · exact Or.inl (hother id hid).symm
    · intro id
      by_cases hid : id = inv.id
      · rw [hid]
        have hb : bump φ inv.id 1 inv.id = 1 := by simp [bump]
        rw [hb]
        exact ⟨fun h => absurd h (by decide), fun _ => hnew,
          fun h => absurd h (by decide), fun h => absurd h (by decide), by decide⟩
      · have hb : bump φ inv.id 1 id = φ id := by simp [bump, hid]
        have hs : stId (stepEv st (.upload inv)) id = stId st id :=
          hother id (fun he => hid he.symm)
        rw [hb, hs]
        exact hc id
  | start φ id₀ t tr hφ htr =>
    have hPend : stId st id₀ = some .Pending := (hc id₀).2.1 hφ
    obtain ⟨inv0, hg0, hs0⟩ := stId_some_status st id₀ .Pending hPend
    have hnew : stId (stepEv st (.start id₀ t)) id₀ = some .Processing := by
      show stId (updateById st id₀ (startUpd t)) id₀ = some .Processing
      rw [stId_update_self st id₀ (startUpd t) (fun x => rfl) inv0 hg0]
      rfl
    have hother : ∀ id, id ≠ id₀ → stId (stepEv st (.start id₀ t)) id = stId st id :=
      fun id hne => stId_update_ne st id₀ id (startUpd t) (fun x => rfl) hne
    refine ⟨?_, bump φ id₀ 2, htr, ?_⟩
    · intro id
      by_cases hid : id = id₀
      · rw [hid]
        exact Or.inr (Or.inr (Or.inl ⟨hPend, hnew⟩))
      · exact Or.inl (hother id hid).symm
    · intro id
      by_cases hid : id = id₀
      · rw [hid]
        have hb : bump φ id₀ 2 id₀ = 2 := by simp [bump]
        rw [hb]
        exact ⟨fun h => absurd h (by decide), fun h => absurd h (by decide),
          fun _ => hnew, fun h => absurd h (by decide), by decide⟩
      · have hb : bump φ id₀ 2 id = φ id := by simp [bump, hid]
        rw [hb, hother id hid]
        exact hc id
  | finish φ id₀ ok t tr hφ htr =>
    have hProc : stId st id₀ = some .Processing := (hc id₀).2.2.1 hφ
    obtain ⟨inv0, hg0, hs0⟩ := stId_some_status st id₀ .Processing hProc
    have hnew : stId (stepEv st (.finish id₀ ok t)) id₀ =
        some (if ok then Status.Processed else Status.Failed) := by
      show stId (updateById st id₀ (finishUpd ok t)) id₀ = _
      rw [stId_update_self st id₀ (finishUpd ok t) (fun x => rfl) inv0 hg0]
      rfl
    have hother : ∀ id, id ≠ id₀ → stId (stepEv st (.finish id₀ ok t)) id = stId st id :=
      fun id hne => stId_update_ne st id₀ id (finishUpd ok t) (fun x => rfl) hne
    refine ⟨?_, bump φ id₀ 3, htr, ?_⟩
    · intro id
      by_cases hid : id = id₀
      · rw [hid]
        refine Or.inr (Or.inr (Or.inr ⟨hProc, ?_⟩))
        cases ok
        · exact Or.inr (by simpa using hnew)
        · exact Or.inl (by simpa using hnew)
      · exact Or.inl (hother id hid).symm
    · intro id
      by_cases hid : id = id₀
      · rw [hid]
        have hb : bump φ id₀ 3 id₀ = 3 := by simp [bump]
        rw [hb]
        refine ⟨fun h => absurd h (by decide), fun h => absurd h (by decide),
          fun h => absurd h (by decide), fun _ => ?_, by decide⟩
        cases ok
        · exact Or.inr (by simpa using hnew)
        · exact Or.inl (by simpa using hnew)
      · have hb : bump φ id₀ 3 id = φ id := by simp [bump, hid]
        rw [hb, hother id hid]
        exact hc id

theorem run_allowed (p : List Event) :
    ∀ (φ : String → Nat) (st : List Invoice) (e : Event) (q : List Event),
      ValidFrom φ (p ++ e :: q) → phaseConsistent φ st →
      ∀ id, allowedMove (stId (runFrom st p) id) (stId (stepEv (runFrom st p) e) id) := by
  induction p with
  | nil =>
    intro φ st e q hv hc id
    exact (step_preserve φ st e q hc hv).1 id
  | cons e₀ p' ih =>
    intro φ st e q hv hc id
    rw [List.cons_append] at hv
    obtain ⟨-, φ', hv', hc'⟩ := step_preserve φ st e₀ (p' ++ e :: q) hc hv
    have hrun : runFrom st (e₀ :: p') = runFrom (stepEv st e₀) p' := rfl
    rw [hrun]
    exact ih φ' (stepEv st e₀) e q hv' hc' id

theorem phaseConsistent_init : phaseConsistent (fun _ => 0) [] := by
  intro id
  refine ⟨fun _ => rfl, fun h => ?_, fun h => ?_, fun h => ?_, ?_⟩
  · simp at h
  · simp at h
  · simp at h
  · show (0 : Nat) ≤ 3
    decide

/-- C3: along every trace the system can generate (uploads create fresh
Pending records and schedule the simulator; the simulator fires Start
once per record and schedules Finish only inside Start), every event
changes each record's status only forward along
Pending → Processing → {Processed, Failed}: no event moves a record away
from a terminal state, and a terminal state is only entered from
Processing, so no record reaches it without passing through Processing. -/
theorem status_moves_only_forward (p : List Event) (e : Event) (q : List Event)
    (id : String) (h : ValidTrace (p ++ e :: q)) :
    allowedMove (stId (runTrace p) id) (stId (runTrace (p ++ [e])) id) := by
  have hsplit : runTrace (p ++ [e]) = stepEv (runTrace p) e := by
    unfold runTrace runFrom
    rw [List.foldl_append]
    rfl
  rw [hsplit]
  exact run_allowed p (fun _ => 0) [] e q h phaseConsistent_init id

/-- Witness for C3: the two-event trace uploading `wInv` and then firing
its Start step; the observed move is Pending → Processing. -/
theorem status_moves_only_forward_witness :
    allowedMove (stId (runTrace [Event.upload wInv]) "w")
      (stId (runTrace ([Event.upload wInv] ++ [Event.start "w" 7])) "w") := by
  have hvalid : ValidTrace ([Event.upload wInv] ++ Event.start "w" 7 :: []) := by
    apply ValidFrom.upload _ wInv _ rfl rfl rfl rfl
    apply ValidFrom.start _ "w" 7 _ (by simp [bump, wInv, mkDemo])
    exact ValidFrom.nil _
  exact status_moves_only_forward [Event.upload wInv] (Event.start "w" 7) [] "w" hvalid

/-- C4: for every store and every query configuration, the `total` field
of the response equals the number of records passing the status filter
and the text filter, and it does not depend on `page` or `limit`. -/
theorem total_counts_filtered_records (st : List Invoice) (page limit page' limit' : Int)
    (sortBy sortOrder : String) (status search : Option String) :
    (listInvoices st page limit sortBy sortOrder status search).total =
      st.countP (fun inv => statusPred status inv && searchPred search inv) ∧
    (listInvoices st page limit sortBy sortOrder status search).total =
      (listInvoices st page' limit' sortBy sortOrder status search).total := by
  have key : ∀ (p q : Int),
      (listInvoices st p q sortBy sortOrder status search).total =
        st.countP (fun inv => statusPred status inv && searchPred search inv) := by
    intro p q
    show (sortInvoices sortBy sortOrder
        (searchFilterFn search (statusFilterFn status st))).length = _
    rw [length_sortInvoices, searchFilterFn_eq_filter, statusFilterFn_eq_filter,
      List.filter_filter, ← List.countP_eq_length_filter]
    have hcom : (fun a => searchPred search a && statusPred status a) =
        fun inv => statusPred status inv && searchPred search inv := by
      funext a; rw [Bool.and_comm]
    rw [hcom]
  exact ⟨key page limit, (key page limit).trans (key page' limit').symm⟩

/-- C5: for every store and configuration with `page ≥ 1` whose start
offset `(page-1)*limit` is at or beyond the number of filtered records,
the response carries an empty `data` sequence (no error is possible: the
pipeline is total) and `total` still equals the filtered count. -/
theorem page_beyond_last_yields_empty (st : List Invoice) (page limit : Int)
    (sortBy sortOrder : String) (status search : Option String)
    (_hp : 1 ≤ page)
    (hbeyond : ((searchFilterFn search (statusFilterFn status st)).length : Int) ≤
      (page - 1) * limit) :
    (listInvoices st page limit sortBy sortOrder status search).data = [] ∧
    (listInvoices st page limit sortBy sortOrder status search).total =
      (searchFilterFn search (statusFilterFn status st)).length := by
  constructor
  · show jsSlice (sortInvoices sortBy sortOrder _) _ _ = []
    apply jsSlice_of_len_le
    rw [length_sortInvoices]
    exact hbeyond
  · show (sortInvoices sortBy sortOrder _).length = _
    exact length_sortInvoices _ _ _

/-- Witness for C5, the spec's scenario: page 3 with limit 10 over a
store of 5 records returns no data and total 5. -/
theorem page_beyond_last_yields_empty_witness :
    (listInvoices fiveStore 3 10 "uploadDate" "desc" none none).data = [] ∧
    (listInvoices fiveStore 3 10 "uploadDate" "desc" none none).total = 5 := by
  have h := page_beyond_last_yields_empty fiveStore 3 10 "uploadDate" "desc" none none
    (by decide) (by decide)
  exact ⟨h.1, h.2.trans (by decide)⟩

/-- C6: the sentinel status value "all" and an absent status parameter
both behave exactly like applying no status filter at all, on the filter
step itself and on the whole endpoint. -/
theorem status_all_equals_no_filter :
    (∀ l : List Invoice, statusFilterFn (some "all") l = l ∧ statusFilterFn none l = l) ∧
    ∀ (st : List Invoice) (page limit : Int) (sortBy sortOrder : String)
      (search : Option String),
      listInvoices st page limit sortBy sortOrder (some "all") search =
        listInvoices st page limit sortBy sortOrder none search := by
  have hall : ∀ l : List Invoice, statusFilterFn (some "all") l = l := by
    intro l; simp [statusFilterFn]
  refine ⟨fun l => ⟨hall l, rfl⟩, ?_⟩
  intro st page limit sortBy sortOrder search
  unfold listInvoices
  rw [hall]
  rfl

theorem charsLeadWith_iff (n h : List Char) :
    charsLeadWith n h = true ↔ ∃ r, h = n ++ r := by
  induction n generalizing h with
  | nil =>
    simp only [charsLeadWith, List.nil_append]
    exact ⟨fun _ => ⟨h, rfl⟩, fun _ => trivial⟩
  | cons c cs ih =>
    cases h with
    | nil => simp [charsLeadWith]
    | cons d ds =>
      simp only [charsLeadWith, Bool.and_eq_true, beq_iff_eq, ih, List.cons_append,
        List.cons.injEq]
      constructor
      · rintro ⟨hcd, r, hr⟩; exact ⟨r, hcd.symm, hr⟩
      · rintro ⟨r, hdc, hr⟩; exact ⟨hdc.symm, r, hr⟩

theorem charsContain_iff (h n : List Char) :
    charsContain h n = true ↔ ∃ p r, h = p ++ n ++ r := by
  induction h with
  | nil =>
    rw [charsContain]
    simp only [Bool.or_false, charsLeadWith_iff]
    constructor
    · rintro ⟨r, hr⟩; exact ⟨[], r, by simpa using hr⟩
    · rintro ⟨p, r, hpr⟩
      refine ⟨r, ?_⟩
      have hp : p = [] ∧ (n ++ r = []) := by
        have := hpr.symm
        rw [List.append_assoc] at this
        exact List.append_eq_nil.mp this
      have hn : n = [] ∧ r = [] := List.append_eq_nil.mp hp.2
      simp [hn.1, hn.2]
  | cons d ds ih =>
    rw [charsContain]
    simp only [Bool.or_eq_true, charsLeadWith_iff, ih]
    constructor
    · rintro (⟨r, hr⟩ | ⟨p, r, hr⟩)
      · exact ⟨[], r, by simpa using hr⟩
      · exact ⟨d :: p, r, by simp [hr]⟩
    · rintro ⟨p, r, hpr⟩
      cases p with
      | nil => exact Or.inl ⟨r, by simpa using hpr⟩
      | cons e p' =>
        rw [List.cons_append, List.cons_append, List.cons.injEq] at hpr
        exact Or.inr ⟨p', r, hpr.2⟩

theorem strContainsSub_iff (hay needle : String) :
    strContainsSub hay needle = true ↔
      ∃ p r, hay.toList = p ++ needle.toList ++ r :=
  charsContain_iff hay.toList needle.toList

/-- C7: the text filter keeps exactly the records whose fileName or
clientName contains the search text as a case-insensitive substring, and
searching for the empty string produces the same endpoint output as not
searching at all. -/
theorem search_is_ci_substring :
    (∀ (l : List Invoice) (s : String) (inv : Invoice),
      inv ∈ searchFilterFn (some s) l ↔
        inv ∈ l ∧ (CiSubstr s inv.fileName ∨ CiSubstr s inv.clientName)) ∧
    ∀ (st : List Invoice) (page limit : Int) (sortBy sortOrder : String)
      (status : Option String),
      listInvoices st page limit sortBy sortOrder status (some "") =
        listInvoices st page limit sortBy sortOrder status none := by
  have hms : ∀ (s : String) (inv : Invoice), matchesSearch s inv = true ↔
      (CiSubstr s inv.fileName ∨ CiSubstr s inv.clientName) := by
    intro s inv
    unfold matchesSearch CiSubstr
    rw [Bool.or_eq_true, strContainsSub_iff, strContainsSub_iff]
  constructor
  · intro l s inv
    by_cases hs : s = ""
    · subst hs
      have hskip : searchFilterFn (some "") l = l := by simp [searchFilterFn]
      have htriv : ∀ x : String, CiSubstr "" x := by
        intro x
        exact ⟨[], (jsToLower x).toList, by simp [jsToLower]⟩
      rw [hskip]
      simp [htriv]
    · have hf : searchFilterFn (some s) l = l.filter (fun inv => matchesSearch s inv) := by
        simp [searchFilterFn, hs]
      rw [hf, List.mem_filter, hms]
  · intro st page limit sortBy sortOrder status
    unfold listInvoices
    have hskip : searchFilterFn (some "") (statusFilterFn status st) =
        searchFilterFn none (statusFilterFn status st) := by
      simp [searchFilterFn]
    rw [hskip]

/-- C8: for an invoice present in the store when its Finish step fires,
the step rewrites exactly that record to have status Processed or Failed
(Failed whenever the drawn outcome is the failure one) and
processingEndTime set to the step's time, leaving every other field —
processingStartTime as written by Start included — and every other
record unchanged. -/
theorem finish_step_frame (st : List Invoice) (id : String) (ok : Bool) (t : Int)
    (inv : Invoice) (h : getInv st id = some inv) :
    getInv (finishStep st id ok t) id = some (finishUpd ok t inv) ∧
    (∀ id', id' ≠ id → getInv (finishStep st id ok t) id' = getInv st id') ∧
    ((finishUpd ok t inv).status = .Processed ∨ (finishUpd ok t inv).status = .Failed) ∧
    (ok = false → (finishUpd ok t inv).status = .Failed) ∧
    (finishUpd ok t inv).processingEndTime = some t ∧
    (finishUpd ok t inv).processingStartTime = inv.processingStartTime ∧
    (finishUpd ok t inv).id = inv.id ∧
    (finishUpd ok t inv).fileName = inv.fileName ∧
    (finishUpd ok t inv).fileSize = inv.fileSize ∧
    (finishUpd ok t inv).clientName = inv.clientName ∧
    (finishUpd ok t inv).amount = inv.amount ∧
    (finishUpd ok t inv).uploadDate = inv.uploadDate ∧
    (finishUpd ok t inv).filePath = inv.filePath := by
  refine ⟨getInv_updateById_self st id (finishUpd ok t) (fun x => rfl) inv h,
    fun id' hne => getInv_updateById_ne st id id' (finishUpd ok t) (fun x => rfl) hne,
    ?_, ?_, rfl, rfl, rfl, rfl, rfl, rfl, rfl, rfl, rfl⟩
  · cases ok
    · exact Or.inr rfl
    · exact Or.inl rfl
  · intro hok
    subst hok
    rfl

/-- Witness for C8: a failure-outcome Finish at time 9 on a one-record
store containing `wInv` under id "w". -/
theorem finish_step_frame_witness :
    getInv [wInv] "w" = some wInv ∧
    getInv (finishStep [wInv] "w" false 9) "w" = some (finishUpd false 9 wInv) ∧
    getInv (finishStep [wInv] "w" false 9) "zz" = getInv [wInv] "zz" ∧
    (finishUpd false 9 wInv).status = .Failed ∧
    (finishUpd false 9 wInv).processingEndTime = some 9 ∧
    (finishUpd false 9 wInv).processingStartTime = wInv.processingStartTime := by
  have h : getInv [wInv] "w" = some wInv := by decide
  have hmain := finish_step_frame [wInv] "w" false 9 wInv h
  exact ⟨h, hmain.1, hmain.2.1 "zz" (by decide), hmain.2.2.2.1 rfl,
    hmain.2.2.2.2.1, hmain.2.2.2.2.2.1⟩

/-- C9: when the id a Start or Finish step fires for is absent from the
store, the step is a silent no-op: both step functions are total (no
error path exists) and return the store unchanged. -/
theorem absent_id_steps_are_noops (st : List Invoice) (id : String) (t : Int) (ok : Bool)
    (h : getInv st id = none) :
    startStep st id t = st ∧ finishStep st id ok t = st :=
  ⟨updateById_of_getInv_none st id _ h, updateById_of_getInv_none st id _ h⟩

/-- Witness for C9: the Start and Finish steps for an id not in a
one-record store leave it unchanged. -/
theorem absent_id_steps_are_noops_witness :
    startStep [wInv] "zz" 5 = [wInv] ∧ finishStep [wInv] "zz" false 5 = [wInv] :=
  absent_id_steps_are_noops [wInv] "zz" 5 false (by decide)

/-- C10: the list endpoint does not validate that `page` is positive: a
page parameter parsing to 0 falls back to the default 1, a negative page
parameter is used as is, and the resulting negative slice indices count
from the end of the filtered sequence, so a negative page can return
non-empty data (here page -1 with limit 3 over ten records). -/
theorem negative_page_not_validated :
    intParam (some "0") 1 = 1 ∧
    intParam (some "-1") 1 = -1 ∧
    (listEndpoint demoStore (some "-1") (some "3") none none none none).data ≠ [] := by
  refine ⟨by decide, by decide, ?_⟩
  have hdata : (listEndpoint demoStore (some "-1") (some "3") none none none none).data =
      jsSlice (sortInvoices "uploadDate" "desc" demoStore) (-6) (-3) := rfl
  have hlen : (jsSlice (sortInvoices "uploadDate" "desc" demoStore) (-6) (-3)).length = 3 := by
    unfold jsSlice
    rw [List.length_take, List.length_drop, length_sortInvoices]
    decide
  intro hempty
  rw [hdata] at hempty
  rw [hempty] at hlen
  simp at hlen

end InvoiceApp
